import Mathlib

/-!
Shallow embedding of the two core helpers of src/main.py:

- generate_upi_link (upi_id, name, amount): validates its inputs
  (Python truthiness: an empty string is falsy, amount must not be None and
  must be strictly positive) and renders the f-string
  upi://pay?pa=PID&pn=ENC&am=AMT&cu=INR, where ENC is urllib.parse.quote of
  the name and AMT is the amount formatted with the .2f format spec.
  Strings are modelled as Lean strings (the empty string also models an
  absent value, which Python treats identically under truthiness); the
  amount, a Python float, is modelled as an optional rational number (none
  models Python None), and the .2f format spec as correct rounding of the
  exact value to two decimals with ties to even, which is what CPython
  performs on the exact binary value of a float.

- generate_qr_code_base64 (data): validates that the payload is non-empty,
  then delegates to the third-party qrcode/PIL pipeline with a fixed
  configuration (version 1, error correction H, box size 10, border 4,
  fit enabled) and base64-encodes the resulting PNG bytes. The third-party
  pipeline is not part of this repository; it is modelled as an abstract
  image encoder passed as an argument, receiving exactly the fixed
  configuration and the unmodified payload. The base64 step
  (Python base64.b64encode, RFC 4648 standard alphabet with padding) is
  embedded concretely, bytes as natural numbers below 256.
-/

namespace UpiApp

/-- Characters never percent-escaped by urllib.parse.quote with its default
safe argument: ASCII letters, digits, underscore, dot, hyphen, tilde, and
the default safe character, the slash. -/
def isAlwaysSafe (c : Char) : Bool :=
  (65 ≤ c.toNat && c.toNat ≤ 90) || (97 ≤ c.toNat && c.toNat ≤ 122) ||
    (48 ≤ c.toNat && c.toNat ≤ 57) ||
    c = '_' || c = '.' || c = '-' || c = '~' || c = '/'

/-- UTF-8 encoding of one character, as the list of its byte values.
urllib.parse.quote encodes the string as UTF-8 before escaping. -/
def utf8Bytes (c : Char) : List Nat :=
  if c.toNat < 128 then [c.toNat]
  else if c.toNat < 2048 then
    [192 + c.toNat / 64, 128 + c.toNat % 64]
  else if c.toNat < 65536 then
    [224 + c.toNat / 4096, 128 + c.toNat / 64 % 64, 128 + c.toNat % 64]
  else
    [240 + c.toNat / 262144, 128 + c.toNat / 4096 % 64,
      128 + c.toNat / 64 % 64, 128 + c.toNat % 64]

/-- Uppercase hexadecimal digit, as produced by urllib.parse.quote. -/
def hexDigitChar (n : Nat) : Char :=
  if n < 10 then Char.ofNat (48 + n) else Char.ofNat (55 + n)

/-- Percent-escape each byte of a list as a three-character sequence. -/
def percentHexBytes : List Nat → List Char
  | [] => []
  | b :: bs => '%' :: hexDigitChar (b / 16) :: hexDigitChar (b % 16) :: percentHexBytes bs

/-- How urllib.parse.quote treats one character: safe characters pass
through, every other character is replaced by the percent-escapes of its
UTF-8 bytes. -/
def quoteChar (c : Char) : List Char :=
  if isAlwaysSafe c then [c] else percentHexBytes (utf8Bytes c)

/-- Character-list version of urllib.parse.quote. -/
def quoteList : List Char → List Char
  | [] => []
  | c :: cs => quoteChar c ++ quoteList cs

/-- urllib.parse.quote with its default arguments, as called on line 26 of
src/main.py. -/
def quote (s : String) : String := String.mk (quoteList s.data)

/-- Decimal digit character. -/
def digitChar (d : Nat) : Char := Char.ofNat (48 + d)

/-- Rounding of the fraction num over den (den positive) to the nearest
integer, ties to even: the rounding CPython applies to the exact value of a
float under the .2f format spec (after scaling by 100). -/
def roundHalfEven (num den : ℤ) : ℤ :=
  let f := num.fdiv den
  let r := num - f * den
  if 2 * r < den then f
  else if den < 2 * r then f + 1
  else if f % 2 = 0 then f else f + 1

/-- Decimal digits of a natural number, most significant first, on explicit
fuel so that it evaluates inside the kernel. -/
def natDigitsAux : Nat → Nat → List Char
  | 0, _ => []
  | fuel + 1, n =>
    if n < 10 then [digitChar n]
    else natDigitsAux fuel (n / 10) ++ [digitChar (n % 10)]

/-- Decimal digits of a natural number, most significant first. -/
def natDigits (n : Nat) : List Char := natDigitsAux (n + 1) n

/-- The .2f format spec of line 27 of src/main.py: fixed-point rendering
with exactly two fractional digits, correctly rounded with ties to even.
The amount times 100 is the fraction num times 100 over den of the exact
rational value. -/
def formatAmount2f (q : ℚ) : String :=
  let n := roundHalfEven (q.num * 100) q.den
  String.mk ((if n < 0 then ['-'] else []) ++ natDigits (n.natAbs / 100) ++
    '.' :: digitChar (n.natAbs / 10 % 10) :: [digitChar (n.natAbs % 10)])

/-- Value of a hexadecimal digit character, none for other characters. -/
def hexVal (c : Char) : Option Nat :=
  if 48 ≤ c.toNat ∧ c.toNat ≤ 57 then some (c.toNat - 48)
  else if 65 ≤ c.toNat ∧ c.toNat ≤ 70 then some (c.toNat - 55)
  else if 97 ≤ c.toNat ∧ c.toNat ≤ 102 then some (c.toNat - 87)
  else none

/-- Standard decoding of a percent-encoded URI component into its byte
sequence: a percent sign followed by two hexadecimal digits stands for one
byte, any other ASCII character stands for itself. -/
def percentDecodeBytes : List Char → Option (List Nat)
  | [] => some []
  | c :: rest =>
    if c = '%' then
      match rest with
      | h1 :: h2 :: rest2 =>
        match hexVal h1, hexVal h2 with
        | some a, some b => (percentDecodeBytes rest2).map (fun l => (a * 16 + b) :: l)
        | _, _ => none
      | _ => none
    else if c.toNat < 128 then (percentDecodeBytes rest).map (fun l => c.toNat :: l)
    else none

/-- Standard decoding of one UTF-8 encoded code point at the head of a byte
sequence, returning the code point and the remaining bytes. -/
def utf8DecodeOne : List Nat → Option (Nat × List Nat)
  | [] => none
  | b :: bs =>
    if b < 128 then some (b, bs)
    else if b < 192 then none
    else if b < 224 then
      match bs with
      | b1 :: bs2 =>
        if 128 ≤ b1 ∧ b1 < 192 then some ((b - 192) * 64 + (b1 - 128), bs2)
        else none
      | _ => none
    else if b < 240 then
      match bs with
      | b1 :: b2 :: bs2 =>
        if (128 ≤ b1 ∧ b1 < 192) ∧ (128 ≤ b2 ∧ b2 < 192) then
          some ((b - 224) * 4096 + (b1 - 128) * 64 + (b2 - 128), bs2)
        else none
      | _ => none
    else if b < 248 then
      match bs with
      | b1 :: b2 :: b3 :: bs2 =>
        if (128 ≤ b1 ∧ b1 < 192) ∧ (128 ≤ b2 ∧ b2 < 192) ∧ (128 ≤ b3 ∧ b3 < 192) then
          some ((b - 240) * 262144 + (b1 - 128) * 4096 + (b2 - 128) * 64 +
            (b3 - 128), bs2)
        else none
      | _ => none
    else none

/-- UTF-8 decoding loop, one unit of fuel per code point. Since every code
point consumes at least one byte, fuel equal to the byte count always
suffices. -/
def utf8DecodeLoop : Nat → List Nat → Option (List Nat)
  | _, [] => some []
  | 0, _ :: _ => none
  | fuel + 1, b :: bs =>
    match utf8DecodeOne (b :: bs) with
    | some (cp, rest) => (utf8DecodeLoop fuel rest).map (fun l => cp :: l)
    | none => none

/-- Standard UTF-8 decoding of a byte sequence into code points. -/
def utf8DecodeCps (bs : List Nat) : Option (List Nat) :=
  utf8DecodeLoop bs.length bs

/-- UTF-8 encoding of a character list. -/
def utf8Encode : List Char → List Nat
  | [] => []
  | c :: cs => utf8Bytes c ++ utf8Encode cs

/-- Full decoder for a percent-encoded URI component: percent decoding to
bytes, UTF-8 decoding to code points, code points to a string. -/
def percentDecodeString (s : String) : Option String :=
  (percentDecodeBytes s.data).bind fun bs =>
    (utf8DecodeCps bs).map fun cps => String.mk (cps.map Char.ofNat)

/-- Whether the first list is an initial segment of the second. -/
def leadsWith : List Char → List Char → Bool
  | [], _ => true
  | _ :: _, [] => false
  | p :: ps, c :: cs => p = c && leadsWith ps cs

/-- Number of positions of the second list at which the first list occurs
as a contiguous segment. -/
def countOcc (pat : List Char) : List Char → Nat
  | [] => 0
  | c :: rest => (if leadsWith pat (c :: rest) then 1 else 0) + countOcc pat rest

/-- The four field keys of the UPI URI. -/
def paKey : List Char := ['p', 'a', '=']

def pnKey : List Char := ['p', 'n', '=']

def amKey : List Char := ['a', 'm', '=']

def cuKey : List Char := ['c', 'u', '=']

/-- generate_upi_link from src/main.py, lines 13 to 27. The guard mirrors
the Python condition not (upi_id and name and amount is not None and
amount > 0). -/
def generate_upi_link (upi_id name : String) (amount : Option ℚ) : Option String :=
  match amount with
  | none => none
  | some a =>
    if upi_id = "" ∨ name = "" ∨ a ≤ 0 then none
    else
      some ("upi://pay?pa=" ++ upi_id ++ "&pn=" ++ quote name ++ "&am=" ++
        formatAmount2f a ++ "&cu=INR")

/-- Error-correction levels of the qrcode library, from qrcode.constants. -/
inductive ErrorCorrectionLevel where
  | L
  | M
  | Q
  | H

/-- The keyword arguments src/main.py passes when building the encoder
object, lines 40 to 47, together with the fit flag passed to make. -/
structure QRCodeConfig where
  version : Nat
  errorCorrection : ErrorCorrectionLevel
  boxSize : Nat
  border : Nat
  fit : Bool

/-- The fixed configuration used by generate_qr_code_base64: version 1,
ERROR_CORRECT_H, box_size 10, border 4, make(fit=True). -/
def mainQRConfig : QRCodeConfig :=
  ⟨1, ErrorCorrectionLevel.H, 10, 4, true⟩

/-- Character of the RFC 4648 standard base64 alphabet at a given index. -/
def b64Char (n : Nat) : Char :=
  if n < 26 then Char.ofNat (65 + n)
  else if n < 52 then Char.ofNat (97 + (n - 26))
  else if n < 62 then Char.ofNat (48 + (n - 52))
  else if n = 62 then '+'
  else '/'

/-- base64.b64encode on a byte list: three bytes become four alphabet
characters, a final partial group is padded with the equals sign. -/
def b64encodeList : List Nat → List Char
  | [] => []
  | [a] => [b64Char (a / 4), b64Char (a % 4 * 16), '=', '=']
  | [a, b] => [b64Char (a / 4), b64Char (a % 4 * 16 + b / 16), b64Char (b % 16 * 4), '=']
  | a :: b :: c :: rest =>
    b64Char (a / 4) :: b64Char (a % 4 * 16 + b / 16) ::
      b64Char (b % 16 * 4 + c / 64) :: b64Char (c % 64) :: b64encodeList rest

/-- Index of a character in the base64 alphabet, none for a character
outside it. -/
def b64Val (c : Char) : Option Nat :=
  if 'A' ≤ c ∧ c ≤ 'Z' then some (c.toNat - 65)
  else if 'a' ≤ c ∧ c ≤ 'z' then some (c.toNat - 97 + 26)
  else if '0' ≤ c ∧ c ≤ '9' then some (c.toNat - 48 + 52)
  else if c = '+' then some 62
  else if c = '/' then some 63
  else none

/-- Strict base64 decoding, the inverse of b64encodeList. -/
def b64decodeList : List Char → Option (List Nat)
  | [] => some []
  | c1 :: c2 :: c3 :: c4 :: rest =>
    match b64Val c1, b64Val c2 with
    | some v1, some v2 =>
      if c3 = '=' then
        if c4 = '=' ∧ rest = [] then
          if v2 % 16 = 0 then some [v1 * 4 + v2 / 16] else none
        else none
      else
        match b64Val c3 with
        | some v3 =>
          if c4 = '=' then
            if rest = [] then
              if v3 % 4 = 0 then some [v1 * 4 + v2 / 16, v2 % 16 * 16 + v3 / 4]
              else none
            else none
          else
            match b64Val c4 with
            | some v4 =>
              (b64decodeList rest).map
                (fun l =>
                  (v1 * 4 + v2 / 16) :: (v2 % 16 * 16 + v3 / 4) ::
                    (v3 % 4 * 64 + v4) :: l)
            | none => none
        | none => none
    | _, _ => none
  | _ => none

/-- generate_qr_code_base64 from src/main.py, lines 30 to 52. The
third-party qrcode/PIL pipeline (QRCode construction, add_data, make,
make_image, PNG serialisation) is not code of this repository; it is
abstracted as the mkImage argument, which receives the fixed configuration
of lines 40 to 47 and the unmodified payload and yields the PNG bytes. The
guard and the base64 step are embedded from the source. -/
def generate_qr_code_base64 (mkImage : QRCodeConfig → String → List Nat)
    (data : String) : Option String :=
  if data = "" then none
  else some (String.mk (b64encodeList (mkImage mainQRConfig data)))

/-- C1: generate_upi_link applied to the merchant id, the merchant name and
amount 150.00 returns exactly the documented URI string. -/
theorem upi_link_costa_example :
    generate_upi_link "costacoffee@upi" "Costa Coffee" (some 150) =
      some "upi://pay?pa=costacoffee@upi&pn=Costa%20Coffee&am=150.00&cu=INR" := by
  decide

/-- C2: whenever the payee id is empty, the name is empty, the amount is
absent, or the amount is not strictly positive, generate_upi_link returns
none; being a total Lean function it raises nothing. -/
theorem upi_link_invalid_none (upi_id name : String) (amount : Option ℚ)
    (h : upi_id = "" ∨ name = "" ∨ amount = none ∨ ∃ a, amount = some a ∧ a ≤ 0) :
    generate_upi_link upi_id name amount = none := by
  cases amount with
  | none => rfl
  | some a =>
    rcases h with h | h | h | ⟨b, hb, hb2⟩
    · simp [generate_upi_link, h]
    · simp [generate_upi_link, h]
    · exact absurd h (by simp)
    · obtain rfl : a = b := Option.some.inj hb
      simp [generate_upi_link, hb2]

/-- Witness for C2 at the documented example: amount 0 with valid payee id
and name yields none. -/
theorem upi_link_invalid_none_witness :
    generate_upi_link "costacoffee@upi" "Costa Coffee" (some 0) = none :=
  upi_link_invalid_none _ _ _ (Or.inr (Or.inr (Or.inr ⟨0, rfl, le_refl 0⟩)))

/-- C6: generate_upi_link is a pure function of its three arguments, so two
calls on identical inputs return identical strings. -/
theorem upi_link_deterministic (p1 p2 n1 n2 : String) (a1 a2 : Option ℚ)
    (hp : p1 = p2) (hn : n1 = n2) (ha : a1 = a2) :
    generate_upi_link p1 n1 a1 = generate_upi_link p2 n2 a2 := by
  rw [hp, hn, ha]

/-- Witness for C6 at a concrete input. -/
theorem upi_link_deterministic_witness :
    generate_upi_link "costacoffee@upi" "Costa Coffee" (some 150) =
      generate_upi_link "costacoffee@upi" "Costa Coffee" (some 150) :=
  upi_link_deterministic _ _ _ _ _ _ rfl rfl rfl

/-- C7: on the empty payload generate_qr_code_base64 returns none before
ever invoking the image encoder, whichever encoder is plugged in. -/
theorem qr_empty_none (mkImage : QRCodeConfig → String → List Nat) :
    generate_qr_code_base64 mkImage "" = none := rfl

/-- C9: on every non-empty payload the result is exactly the base64 of the
image produced from the one fixed configuration, whose error correction is
the high tier, whose border is 4, and whose size policy starts at version 1
and auto-fits. -/
theorem qr_fixed_config (mkImage : QRCodeConfig → String → List Nat)
    (data : String) (h : data ≠ "") :
    generate_qr_code_base64 mkImage data =
        some (String.mk (b64encodeList (mkImage mainQRConfig data))) ∧
      mainQRConfig.errorCorrection = ErrorCorrectionLevel.H ∧
      mainQRConfig.border = 4 ∧ mainQRConfig.fit = true ∧
      mainQRConfig.version = 1 := by
  refine ⟨?_, rfl, rfl, rfl, rfl⟩
  simp [generate_qr_code_base64, h]

/-- Witness for C9 at a concrete encoder and payload. -/
theorem qr_fixed_config_witness :
    ("x" : String) ≠ "" ∧
      generate_qr_code_base64 (fun _ _ => [0]) "x" =
          some (String.mk (b64encodeList ((fun (_ : QRCodeConfig) (_ : String) => [0]) mainQRConfig "x"))) ∧
        mainQRConfig.errorCorrection = ErrorCorrectionLevel.H ∧
        mainQRConfig.border = 4 ∧ mainQRConfig.fit = true ∧
        mainQRConfig.version = 1 :=
  ⟨by decide, qr_fixed_config (fun _ _ => [0]) "x" (by decide)⟩

/-- C10: for every valid input the payee id is inserted verbatim between
pa= and the following field separator, with no escaping of any of its
characters, while the name goes through quote. -/
theorem upi_link_payee_id_verbatim (upi_id name : String) (a : ℚ)
    (h1 : upi_id ≠ "") (h2 : name ≠ "") (h3 : 0 < a) :
    generate_upi_link upi_id name (some a) =
      some ("upi://pay?pa=" ++ upi_id ++ "&pn=" ++ quote name ++ "&am=" ++
        formatAmount2f a ++ "&cu=INR") := by
  have h4 : ¬a ≤ 0 := not_le.mpr h3
  simp [generate_upi_link, h1, h2, h4]

/-- Witness for C10: a payee id containing a space, an ampersand and an
equals sign is reproduced unescaped in the URI. -/
theorem upi_link_payee_id_verbatim_witness :
    ("a &=b" : String) ≠ "" ∧
      generate_upi_link "a &=b" "x" (some 1) =
        some "upi://pay?pa=a &=b&pn=x&am=1.00&cu=INR" := by
  refine ⟨by decide, ?_⟩
  rw [upi_link_payee_id_verbatim "a &=b" "x" 1 (by decide) (by decide) (by norm_num)]
  decide

/-- Every base64 alphabet index maps to a character that decodes back to
the same index and is not the padding character. -/
theorem b64Char_spec (n : Nat) (h : n < 64) :
    b64Val (b64Char n) = some n ∧ b64Char n ≠ '=' := by
  have key : ∀ m : Fin 64, b64Val (b64Char m.val) = some m.val ∧ b64Char m.val ≠ '=' := by
    decide
  exact key ⟨n, h⟩

/-- The base64 encoding of a non-empty byte list is non-empty. -/
theorem b64encodeList_ne_nil (bs : List Nat) (h : bs ≠ []) :
    b64encodeList bs ≠ [] := by
  match bs with
  | [] => exact absurd rfl h
  | [a] => simp [b64encodeList]
  | [a, b] => simp [b64encodeList]
  | a :: b :: c :: rest => simp [b64encodeList]

/-- Base64 decoding is a left inverse of base64 encoding on byte lists. -/
theorem b64_roundtrip (bs : List Nat) (h : ∀ b ∈ bs, b < 256) :
    b64decodeList (b64encodeList bs) = some bs := by
  induction bs using b64encodeList.induct with
  | case1 => rfl
  | case2 a =>
    have ha : a < 256 := h a (List.mem_singleton.mpr rfl)
    have h1 := b64Char_spec (a / 4) (by omega)
    have h2 := b64Char_spec (a % 4 * 16) (by omega)
    simp [b64encodeList, b64decodeList, h1.1, h2.1,
      show a % 4 * 16 % 16 = 0 from by omega]
    omega
  | case3 a b =>
    have ha : a < 256 := h a (by simp)
    have hb : b < 256 := h b (by simp)
    have h1 := b64Char_spec (a / 4) (by omega)
    have h2 := b64Char_spec (a % 4 * 16 + b / 16) (by omega)
    have h3 := b64Char_spec (b % 16 * 4) (by omega)
    simp [b64encodeList, b64decodeList, h1.1, h2.1, h3.1, h3.2,
      show b % 16 * 4 % 4 = 0 from by omega,
      show a / 4 * 4 + (a % 4 * 16 + b / 16) / 16 = a from by omega]
    omega
  | case4 a b c rest ih =>
    have ha : a < 256 := h a (by simp)
    have hb : b < 256 := h b (by simp)
    have hc : c < 256 := h c (by simp)
    have hrest : ∀ x ∈ rest, x < 256 := fun x hx => h x (by simp [hx])
    have h1 := b64Char_spec (a / 4) (by omega)
    have h2 := b64Char_spec (a % 4 * 16 + b / 16) (by omega)
    have h3 := b64Char_spec (b % 16 * 4 + c / 64) (by omega)
    have h4 := b64Char_spec (c % 64) (by omega)
    simp [b64encodeList, b64decodeList, h1.1, h2.1, h3.1, h4.1, h3.2, h4.2,
      ih hrest,
      show a / 4 * 4 + (a % 4 * 16 + b / 16) / 16 = a from by omega,
      show (a % 4 * 16 + b / 16) % 16 * 16 + (b % 16 * 4 + c / 64) / 4 = b from by
        omega,
      show (b % 16 * 4 + c / 64) % 4 * 64 + c % 64 = c from by omega]

/-- C8: for every non-empty payload, assuming the external image encoder
produces non-empty byte output that a standards-compliant reader decodes
back to the payload, generate_qr_code_base64 returns a non-empty string
whose base64 decoding is exactly the encoder output, and reading that
decoded image reproduces the payload unchanged: the wrapper never alters,
truncates or re-encodes the payload. -/
theorem qr_roundtrip (mkImage : QRCodeConfig → String → List Nat)
    (reader : List Nat → Option String) (data : String)
    (h1 : data ≠ "")
    (h2 : ∀ b ∈ mkImage mainQRConfig data, b < 256)
    (h3 : mkImage mainQRConfig data ≠ [])
    (h4 : reader (mkImage mainQRConfig data) = some data) :
    ∃ out, generate_qr_code_base64 mkImage data = some out ∧ out ≠ "" ∧
      b64decodeList out.data = some (mkImage mainQRConfig data) ∧
      (b64decodeList out.data).bind reader = some data := by
  refine ⟨String.mk (b64encodeList (mkImage mainQRConfig data)), ?_, ?_, ?_, ?_⟩
  · simp [generate_qr_code_base64, h1]
  · intro hcontra
    have : b64encodeList (mkImage mainQRConfig data) = [] := by
      have := congrArg String.data hcontra
      simpa using this
    exact b64encodeList_ne_nil _ h3 this
  · exact b64_roundtrip _ h2
  · rw [show (String.mk (b64encodeList (mkImage mainQRConfig data))).data =
      b64encodeList (mkImage mainQRConfig data) from rfl]
    rw [b64_roundtrip _ h2]
    simpa using h4

/-- Witness for C8 at a concrete encoder, reader and payload. -/
theorem qr_roundtrip_witness :
    ("x" : String) ≠ "" ∧
      (∀ b ∈ (fun (_ : QRCodeConfig) (s : String) => s.data.map Char.toNat)
          mainQRConfig "x", b < 256) ∧
      (fun (_ : QRCodeConfig) (s : String) => s.data.map Char.toNat)
          mainQRConfig "x" ≠ [] ∧
      (fun bs => some (String.mk (bs.map Char.ofNat)))
          ((fun (_ : QRCodeConfig) (s : String) => s.data.map Char.toNat)
            mainQRConfig "x") = some "x" ∧
      ∃ out,
        generate_qr_code_base64
            (fun (_ : QRCodeConfig) (s : String) => s.data.map Char.toNat) "x" =
          some out ∧ out ≠ "" ∧
        b64decodeList out.data =
          some ((fun (_ : QRCodeConfig) (s : String) => s.data.map Char.toNat)
            mainQRConfig "x") ∧
        (b64decodeList out.data).bind
            (fun bs => some (String.mk (bs.map Char.ofNat))) = some "x" :=
  ⟨by decide, by decide, by decide, by decide,
    qr_roundtrip (fun _ s => s.data.map Char.toNat)
      (fun bs => some (String.mk (bs.map Char.ofNat))) "x"
      (by decide) (by decide) (by decide) (by decide)⟩

/-- Every code point is below the Unicode bound. -/
theorem char_toNat_lt (c : Char) : c.toNat < 1114112 := by
  rcases c.valid with h | ⟨h1, h2⟩
  · exact Nat.lt_trans h (by norm_num)
  · exact h2

/-- A safe character is ASCII. -/
theorem safe_toNat_lt (c : Char) (h : isAlwaysSafe c = true) : c.toNat < 128 := by
  simp only [isAlwaysSafe, Bool.or_eq_true, Bool.and_eq_true, decide_eq_true_eq] at h
  rcases h with ((((((h | h) | h) | h) | h) | h) | h) | h
  all_goals first
    | omega
    | (subst h; decide)

/-- A safe character is none of the percent sign, the space, the ampersand
and the equals sign. -/
theorem safe_not_special (c : Char) (h : isAlwaysSafe c = true) :
    c ≠ '%' ∧ c ≠ ' ' ∧ c ≠ '&' ∧ c ≠ '=' := by
  refine ⟨?_, ?_, ?_, ?_⟩ <;> rintro rfl <;> revert h <;> decide

/-- Hexadecimal digit characters decode back to their value. -/
theorem hexVal_hexDigitChar (n : Nat) (h : n < 16) :
    hexVal (hexDigitChar n) = some n := by
  have key : ∀ m : Fin 16, hexVal (hexDigitChar m.val) = some m.val := by decide
  exact key ⟨n, h⟩

/-- The UTF-8 bytes of a character are bytes. -/
theorem utf8Bytes_lt256 (c : Char) : ∀ b ∈ utf8Bytes c, b < 256 := by
  have hv := char_toNat_lt c
  intro b hb
  simp only [utf8Bytes] at hb
  split at hb <;> [skip; split at hb] <;> [skip; skip; split at hb] <;>
    simp only [List.mem_cons, List.mem_singleton, List.not_mem_nil, or_false] at hb <;>
    rcases hb with rfl | hb <;> try omega

/-- Members of a percent-escaped list of bytes are the percent sign or
hexadecimal digit characters. -/
theorem mem_percentHexBytes (bs : List Nat) (h : ∀ b ∈ bs, b < 256) (c : Char)
    (hc : c ∈ percentHexBytes bs) :
    c = '%' ∨ ∃ n, n < 16 ∧ c = hexDigitChar n := by
  induction bs with
  | nil => simp [percentHexBytes] at hc
  | cons b bs ih =>
    have hb : b < 256 := h b (by simp)
    have hbs : ∀ x ∈ bs, x < 256 := fun x hx => h x (by simp [hx])
    simp only [percentHexBytes, List.mem_cons] at hc
    rcases hc with rfl | rfl | rfl | hc
    · exact Or.inl rfl
    · exact Or.inr ⟨b / 16, by omega, rfl⟩
    · exact Or.inr ⟨b % 16, by omega, rfl⟩
    · exact ih hbs hc

/-- Hexadecimal digit characters are ASCII and are none of the special
characters. -/
theorem hexDigitChar_not_special (n : Nat) (h : n < 16) :
    hexDigitChar n ≠ ' ' ∧ hexDigitChar n ≠ '&' ∧ hexDigitChar n ≠ '=' ∧
      (hexDigitChar n).toNat < 128 := by
  have key : ∀ m : Fin 16,
      hexDigitChar m.val ≠ ' ' ∧ hexDigitChar m.val ≠ '&' ∧
        hexDigitChar m.val ≠ '=' ∧ (hexDigitChar m.val).toNat < 128 := by decide
  exact key ⟨n, h⟩

/-- C4 part 1: every character of a quoted string is ASCII and is not a
space, an ampersand or an equals sign. -/
theorem quoteList_no_special (cs : List Char) (c : Char)
    (hc : c ∈ quoteList cs) :
    c ≠ ' ' ∧ c ≠ '&' ∧ c ≠ '=' ∧ c.toNat < 128 := by
  induction cs with
  | nil => simp [quoteList] at hc
  | cons d ds ih =>
    simp only [quoteList, List.mem_append] at hc
    rcases hc with hc | hc
    · by_cases hd : isAlwaysSafe d
      · simp only [quoteChar, hd, if_true, List.mem_singleton] at hc
        subst hc
        obtain ⟨_, herr1, herr2, herr3⟩ := safe_not_special c hd
        exact ⟨herr1, herr2, herr3, safe_toNat_lt c hd⟩
      · simp only [quoteChar, hd, if_false, Bool.false_eq_true] at hc
        rcases mem_percentHexBytes _ (utf8Bytes_lt256 d) _ hc with rfl | ⟨n, hn, rfl⟩
        · exact ⟨by decide, by decide, by decide, by decide⟩
        · obtain ⟨e1, e2, e3, e4⟩ := hexDigitChar_not_special n hn
          exact ⟨e1, e2, e3, e4⟩
    · exact ih hc

/-- Percent decoding of a percent-escaped byte list prepends exactly those
bytes. -/
theorem percentDecodeBytes_cons_percent (d1 d2 : Char) (rest : List Char) :
    percentDecodeBytes ('%' :: d1 :: d2 :: rest) =
      match hexVal d1, hexVal d2 with
      | some a, some b => (percentDecodeBytes rest).map (fun l => (a * 16 + b) :: l)
      | _, _ => none := rfl

theorem percentDecodeBytes_cons (c : Char) (rest : List Char) :
    percentDecodeBytes (c :: rest) =
      if c = '%' then
        match rest with
        | d1 :: d2 :: rest2 =>
          match hexVal d1, hexVal d2 with
          | some a, some b =>
            (percentDecodeBytes rest2).map (fun l => (a * 16 + b) :: l)
          | _, _ => none
        | _ => none
      else if c.toNat < 128 then
        (percentDecodeBytes rest).map (fun l => c.toNat :: l)
      else none := by
  cases rest with
  | nil => simp only [percentDecodeBytes]
  | cons d1 rest =>
    cases rest with
    | nil => simp only [percentDecodeBytes]
    | cons d2 rest2 => simp only [percentDecodeBytes]

theorem percentDecodeBytes_cons_plain (c : Char) (rest : List Char)
    (hp : c ≠ '%') (hlt : c.toNat < 128) :
    percentDecodeBytes (c :: rest) =
      (percentDecodeBytes rest).map (fun l => c.toNat :: l) := by
  rw [percentDecodeBytes_cons, if_neg hp, if_pos hlt]

/-- Percent decoding of a percent-escaped byte list prepends exactly those
bytes. -/
theorem percentDecodeBytes_percentHexBytes (bs : List Nat)
    (h : ∀ b ∈ bs, b < 256) (rest : List Char) :
    percentDecodeBytes (percentHexBytes bs ++ rest) =
      (percentDecodeBytes rest).map (fun l => bs ++ l) := by
  induction bs with
  | nil =>
    simp only [percentHexBytes, List.nil_append]
    cases percentDecodeBytes rest <;> simp
  | cons b bs ih =>
    have hb : b < 256 := h b (by simp)
    have hbs : ∀ x ∈ bs, x < 256 := fun x hx => h x (by simp [hx])
    have e1 := hexVal_hexDigitChar (b / 16) (by omega)
    have e2 := hexVal_hexDigitChar (b % 16) (by omega)
    simp only [percentHexBytes, List.cons_append]
    rw [percentDecodeBytes_cons_percent, e1, e2, ih hbs]
    cases percentDecodeBytes rest <;>
      simp [show b / 16 * 16 + b % 16 = b from by omega]

/-- Percent decoding inverts quoting at the byte level: the bytes are the
UTF-8 encoding of the original characters. -/
theorem percentDecodeBytes_quoteList (cs : List Char) :
    percentDecodeBytes (quoteList cs) = some (utf8Encode cs) := by
  induction cs with
  | nil => rfl
  | cons c cs ih =>
    simp only [quoteList, utf8Encode]
    by_cases hc : isAlwaysSafe c
    · have hlt := safe_toNat_lt c hc
      obtain ⟨hp, _, _, _⟩ := safe_not_special c hc
      have hq : quoteChar c = [c] := by simp [quoteChar, hc]
      rw [hq, List.singleton_append, percentDecodeBytes_cons_plain c _ hp hlt, ih]
      simp [utf8Bytes, hlt]
    · have hq : quoteChar c = percentHexBytes (utf8Bytes c) := by
        simp [quoteChar, hc]
      rw [hq, percentDecodeBytes_percentHexBytes (utf8Bytes c) (utf8Bytes_lt256 c)
        (quoteList cs), ih]
      rfl

theorem utf8DecodeOne_cons (b : Nat) (bs : List Nat) :
    utf8DecodeOne (b :: bs) =
      if b < 128 then some (b, bs)
      else if b < 192 then none
      else if b < 224 then
        match bs with
        | b1 :: bs2 =>
          if 128 ≤ b1 ∧ b1 < 192 then some ((b - 192) * 64 + (b1 - 128), bs2)
          else none
        | _ => none
      else if b < 240 then
        match bs with
        | b1 :: b2 :: bs2 =>
          if (128 ≤ b1 ∧ b1 < 192) ∧ (128 ≤ b2 ∧ b2 < 192) then
            some ((b - 224) * 4096 + (b1 - 128) * 64 + (b2 - 128), bs2)
          else none
        | _ => none
      else if b < 248 then
        match bs with
        | b1 :: b2 :: b3 :: bs2 =>
          if (128 ≤ b1 ∧ b1 < 192) ∧ (128 ≤ b2 ∧ b2 < 192) ∧
              (128 ≤ b3 ∧ b3 < 192) then
            some ((b - 240) * 262144 + (b1 - 128) * 4096 + (b2 - 128) * 64 +
              (b3 - 128), bs2)
          else none
        | _ => none
      else none := by
  cases bs with
  | nil => rfl
  | cons b1 bs =>
    cases bs with
    | nil => rfl
    | cons b2 bs =>
      cases bs with
      | nil => rfl
      | cons b3 bs => rfl

/-- The UTF-8 encoding of a character is non-empty. -/
theorem utf8Bytes_ne_nil (c : Char) : utf8Bytes c ≠ [] := by
  simp only [utf8Bytes]
  split_ifs <;> simp

/-- Decoding one code point from an encoded character followed by anything
yields that code point and the rest. -/
theorem utf8DecodeOne_utf8Bytes (c : Char) (bs : List Nat) :
    utf8DecodeOne (utf8Bytes c ++ bs) = some (c.toNat, bs) := by
  have hv := char_toNat_lt c
  by_cases h1 : c.toNat < 128
  · rw [show utf8Bytes c = [c.toNat] from by simp [utf8Bytes, h1],
      List.singleton_append, utf8DecodeOne_cons, if_pos h1]
  · by_cases h2 : c.toNat < 2048
    · rw [show utf8Bytes c = [192 + c.toNat / 64, 128 + c.toNat % 64] from by
        simp [utf8Bytes, h1, h2], List.cons_append, List.singleton_append,
        utf8DecodeOne_cons, if_neg (by omega), if_neg (by omega),
        if_pos (by omega)]
      show (if 128 ≤ 128 + c.toNat % 64 ∧ 128 + c.toNat % 64 < 192 then
          some ((192 + c.toNat / 64 - 192) * 64 + (128 + c.toNat % 64 - 128), bs)
        else none) = _
      rw [if_pos ⟨by omega, by omega⟩,
        show (192 + c.toNat / 64 - 192) * 64 + (128 + c.toNat % 64 - 128) =
          c.toNat from by omega]
    · by_cases h3 : c.toNat < 65536
      · rw [show utf8Bytes c =
            [224 + c.toNat / 4096, 128 + c.toNat / 64 % 64, 128 + c.toNat % 64]
            from by simp [utf8Bytes, h1, h2, h3], List.cons_append,
          List.cons_append, List.singleton_append, utf8DecodeOne_cons,
          if_neg (by omega), if_neg (by omega), if_neg (by omega),
          if_pos (by omega)]
        show (if (128 ≤ 128 + c.toNat / 64 % 64 ∧ 128 + c.toNat / 64 % 64 < 192) ∧
            (128 ≤ 128 + c.toNat % 64 ∧ 128 + c.toNat % 64 < 192) then
            some ((224 + c.toNat / 4096 - 224) * 4096 +
              (128 + c.toNat / 64 % 64 - 128) * 64 + (128 + c.toNat % 64 - 128),
              bs)
          else none) = _
        rw [if_pos ⟨⟨by omega, by omega⟩, by omega, by omega⟩,
          show (224 + c.toNat / 4096 - 224) * 4096 +
              (128 + c.toNat / 64 % 64 - 128) * 64 + (128 + c.toNat % 64 - 128) =
            c.toNat from by omega]
      · rw [show utf8Bytes c =
            [240 + c.toNat / 262144, 128 + c.toNat / 4096 % 64,
              128 + c.toNat / 64 % 64, 128 + c.toNat % 64]
            from by simp [utf8Bytes, h1, h2, h3], List.cons_append,
          List.cons_append, List.cons_append, List.singleton_append,
          utf8DecodeOne_cons, if_neg (by omega), if_neg (by omega),
          if_neg (by omega), if_neg (by omega), if_pos (by omega)]
        show (if (128 ≤ 128 + c.toNat / 4096 % 64 ∧ 128 + c.toNat / 4096 % 64 < 192) ∧
            (128 ≤ 128 + c.toNat / 64 % 64 ∧ 128 + c.toNat / 64 % 64 < 192) ∧
            (128 ≤ 128 + c.toNat % 64 ∧ 128 + c.toNat % 64 < 192) then
            some ((240 + c.toNat / 262144 - 240) * 262144 +
              (128 + c.toNat / 4096 % 64 - 128) * 4096 +
              (128 + c.toNat / 64 % 64 - 128) * 64 + (128 + c.toNat % 64 - 128),
              bs)
          else none) = _
        rw [if_pos ⟨⟨by omega, by omega⟩, ⟨by omega, by omega⟩, by omega, by omega⟩,
          show (240 + c.toNat / 262144 - 240) * 262144 +
              (128 + c.toNat / 4096 % 64 - 128) * 4096 +
              (128 + c.toNat / 64 % 64 - 128) * 64 + (128 + c.toNat % 64 - 128) =
            c.toNat from by omega]

theorem utf8DecodeLoop_step (fuel : Nat) (c : Char) (rest : List Nat) :
    utf8DecodeLoop (fuel + 1) (utf8Bytes c ++ rest) =
      (utf8DecodeLoop fuel rest).map (fun l => c.toNat :: l) := by
  obtain ⟨b, tl, htl⟩ : ∃ b tl, utf8Bytes c ++ rest = b :: tl := by
    cases hh : utf8Bytes c with
    | nil => exact absurd hh (utf8Bytes_ne_nil c)
    | cons x xs => exact ⟨x, xs ++ rest, by simp⟩
  rw [htl]
  simp only [utf8DecodeLoop]
  rw [← htl, utf8DecodeOne_utf8Bytes]

/-- UTF-8 decoding inverts UTF-8 encoding, for any adequate fuel. -/
theorem utf8DecodeLoop_utf8Encode (cs : List Char) (fuel : Nat)
    (h : (utf8Encode cs).length ≤ fuel) :
    utf8DecodeLoop fuel (utf8Encode cs) = some (cs.map Char.toNat) := by
  induction cs generalizing fuel with
  | nil => cases fuel <;> rfl
  | cons c cs ih =>
    have hlen : 1 ≤ (utf8Bytes c).length := by
      cases hh : utf8Bytes c with
      | nil => exact absurd hh (utf8Bytes_ne_nil c)
      | cons x xs => simp
    cases fuel with
    | zero =>
      exfalso
      rw [utf8Encode] at h
      simp only [List.length_append] at h
      omega
    | succ fuel =>
      rw [utf8Encode, utf8DecodeLoop_step, ih fuel]
      · rfl
      · rw [utf8Encode] at h
        simp only [List.length_append] at h
        omega

/-- UTF-8 decoding inverts UTF-8 encoding. -/
theorem utf8DecodeCps_utf8Encode (cs : List Char) :
    utf8DecodeCps (utf8Encode cs) = some (cs.map Char.toNat) :=
  utf8DecodeLoop_utf8Encode cs (utf8Encode cs).length le_rfl

/-- C4 part 2: the full percent decoder recovers the original string from
its quoted form. -/
theorem percentDecodeString_quote (name : String) :
    percentDecodeString (quote name) = some name := by
  obtain ⟨data⟩ := name
  have hmap : (data.map Char.toNat).map Char.ofNat = data := by
    induction data with
    | nil => rfl
    | cons c cs ih => simp [Char.ofNat_toNat, ih]
  have h1 : percentDecodeBytes (quoteList data) = some (utf8Encode data) :=
    percentDecodeBytes_quoteList data
  simp [percentDecodeString, quote, h1, utf8DecodeCps_utf8Encode, hmap]

/-- C4: for every valid input the URI carries the name as quote of the
name, every character of that field is ASCII and is not a space, an
ampersand or an equals sign (so spaces, ampersands, equals signs and
non-ASCII characters of the name occur only as percent-escaped octets),
and the standard percent decoder recovers the name exactly. -/
theorem upi_link_name_percent_encoded (upi_id name : String) (a : ℚ)
    (h1 : upi_id ≠ "") (h2 : name ≠ "") (h3 : 0 < a) :
    generate_upi_link upi_id name (some a) =
        some ("upi://pay?pa=" ++ upi_id ++ "&pn=" ++ quote name ++ "&am=" ++
          formatAmount2f a ++ "&cu=INR") ∧
      (∀ c ∈ (quote name).data, c ≠ ' ' ∧ c ≠ '&' ∧ c ≠ '=' ∧ c.toNat < 128) ∧
      percentDecodeString (quote name) = some name := by
  refine ⟨upi_link_payee_id_verbatim upi_id name a h1 h2 h3, ?_, percentDecodeString_quote name⟩
  intro c hc
  exact quoteList_no_special name.data c hc

/-- Witness for C4 at a name containing a space, an ampersand, an equals
sign and a non-ASCII character. -/
theorem upi_link_name_percent_encoded_witness :
    ("m" : String) ≠ "" ∧ ("Café &=x" : String) ≠ "" ∧ (0 : ℚ) < 1 ∧
      (generate_upi_link "m" "Café &=x" (some 1) =
          some ("upi://pay?pa=" ++ "m" ++ "&pn=" ++ quote "Café &=x" ++ "&am=" ++
            formatAmount2f 1 ++ "&cu=INR") ∧
        (∀ c ∈ (quote "Café &=x").data,
          c ≠ ' ' ∧ c ≠ '&' ∧ c ≠ '=' ∧ c.toNat < 128) ∧
        percentDecodeString (quote "Café &=x") = some "Café &=x") :=
  ⟨by decide, by decide, by norm_num,
    upi_link_name_percent_encoded "m" "Café &=x" 1 (by decide) (by decide)
      (by norm_num)⟩

theorem natDigitsAux_adequate (fuel1 : Nat) :
    ∀ fuel2 n, n < fuel1 → n < fuel2 → natDigitsAux fuel1 n = natDigitsAux fuel2 n := by
  induction fuel1 with
  | zero => intro fuel2 n h1 h2; omega
  | succ fuel1 ih =>
    intro fuel2 n h1 h2
    cases fuel2 with
    | zero => omega
    | succ fuel2 =>
      simp only [natDigitsAux]
      by_cases h : n < 10
      · simp [h]
      · simp only [h, if_false]
        rw [ih fuel2 (n / 10) (by omega) (by omega)]

theorem natDigits_unfold (n : Nat) :
    natDigits n =
      if n < 10 then [digitChar n]
      else natDigits (n / 10) ++ [digitChar (n % 10)] := by
  show natDigitsAux (n + 1) n = _
  simp only [natDigitsAux]
  by_cases h : n < 10
  · simp [h]
  · simp only [h, if_false]
    rw [natDigitsAux_adequate n (n / 10 + 1) (n / 10) (by omega) (by omega)]
    rfl

/-- Decimal digit characters have the expected code points. -/
theorem digitChar_toNat (n : Nat) (h : n < 10) : (digitChar n).toNat = 48 + n := by
  have key : ∀ m : Fin 10, (digitChar m.val).toNat = 48 + m.val := by decide
  exact key ⟨n, h⟩

/-- The decimal rendering of a natural number is a non-empty string of
decimal digit characters. -/
theorem natDigits_spec (n : Nat) :
    natDigits n ≠ [] ∧ ∀ c ∈ natDigits n, 48 ≤ c.toNat ∧ c.toNat ≤ 57 := by
  induction n using Nat.strong_induction_on with
  | _ n ih =>
    rw [natDigits_unfold]
    by_cases h : n < 10
    · simp only [h, if_true]
      refine ⟨by simp, ?_⟩
      intro c hc
      simp only [List.mem_singleton] at hc
      subst hc
      rw [digitChar_toNat n h]
      omega
    · simp only [h, if_false]
      obtain ⟨ih1, ih2⟩ := ih (n / 10) (by omega)
      refine ⟨by simp, ?_⟩
      intro c hc
      rcases List.mem_append.mp hc with hc | hc
      · exact ih2 c hc
      · simp only [List.mem_singleton] at hc
        subst hc
        rw [digitChar_toNat _ (by omega)]
        omega

theorem roundHalfEven_nonneg (num den : ℤ) (h1 : 0 ≤ num) (h2 : 0 < den) :
    0 ≤ roundHalfEven num den := by
  have hf : 0 ≤ num.fdiv den := Int.fdiv_nonneg h1 (by omega)
  simp only [roundHalfEven]
  split_ifs <;> omega

/-- A decimal digit character is neither the equals sign nor the
ampersand. -/
theorem digit_ne_special (c : Char) (h1 : 48 ≤ c.toNat) (h2 : c.toNat ≤ 57) :
    c ≠ '=' ∧ c ≠ '&' := by
  refine ⟨fun e => ?_, fun e => ?_⟩
  · subst e; exact absurd h2 (by decide)
  · subst e; exact absurd h1 (by decide)

/-- C5: on every input accepted by the guard, the am field is the fixed
rendering of the amount: a non-empty block of decimal digits, a dot, and
exactly two decimal digits, with no sign and no exponent, obtained by the
one rounding rule (ties to even on the exact value) built into
formatAmount2f and applied to every input alike. -/
theorem upi_link_amount_two_decimals (upi_id name : String) (a : ℚ) (u : String)
    (h : generate_upi_link upi_id name (some a) = some u) :
    ∃ ipart d1 d2,
      formatAmount2f a = String.mk (ipart ++ '.' :: [d1, d2]) ∧
      ipart ≠ [] ∧ (∀ c ∈ ipart, 48 ≤ c.toNat ∧ c.toNat ≤ 57) ∧
      (48 ≤ d1.toNat ∧ d1.toNat ≤ 57) ∧ (48 ≤ d2.toNat ∧ d2.toNat ≤ 57) ∧
      u = "upi://pay?pa=" ++ upi_id ++ "&pn=" ++ quote name ++ "&am=" ++
        formatAmount2f a ++ "&cu=INR" := by
  have hcond : ¬(upi_id = "" ∨ name = "" ∨ a ≤ 0) := by
    intro hc
    simp [generate_upi_link, hc] at h
  push_neg at hcond
  obtain ⟨hid, hname, ha⟩ := hcond
  have hnum : 0 < a.num := Rat.num_pos.mpr ha
  have hden : (0 : ℤ) < (a.den : ℤ) := by exact_mod_cast a.pos
  have hn : 0 ≤ roundHalfEven (a.num * 100) a.den :=
    roundHalfEven_nonneg _ _ (by positivity) hden
  obtain ⟨hne, hdig⟩ := natDigits_spec ((roundHalfEven (a.num * 100) a.den).natAbs / 100)
  refine ⟨natDigits ((roundHalfEven (a.num * 100) a.den).natAbs / 100),
    digitChar ((roundHalfEven (a.num * 100) a.den).natAbs / 10 % 10),
    digitChar ((roundHalfEven (a.num * 100) a.den).natAbs % 10),
    ?_, hne, hdig, ?_, ?_, ?_⟩
  · simp only [formatAmount2f]
    rw [if_neg (not_lt.mpr hn)]
    simp
  · rw [digitChar_toNat _ (by omega)]
    omega
  · rw [digitChar_toNat _ (by omega)]
    omega
  · have hu := upi_link_payee_id_verbatim upi_id name a hid hname ha
    rw [hu] at h
    exact (Option.some.inj h).symm

/-- Witness for C5 at the documented example input. -/
theorem upi_link_amount_two_decimals_witness :
    generate_upi_link "costacoffee@upi" "Costa Coffee" (some 150) =
        some "upi://pay?pa=costacoffee@upi&pn=Costa%20Coffee&am=150.00&cu=INR" ∧
      ∃ ipart d1 d2,
        formatAmount2f 150 = String.mk (ipart ++ '.' :: [d1, d2]) ∧
        ipart ≠ [] ∧ (∀ c ∈ ipart, 48 ≤ c.toNat ∧ c.toNat ≤ 57) ∧
        (48 ≤ d1.toNat ∧ d1.toNat ≤ 57) ∧ (48 ≤ d2.toNat ∧ d2.toNat ≤ 57) ∧
        "upi://pay?pa=costacoffee@upi&pn=Costa%20Coffee&am=150.00&cu=INR" =
          "upi://pay?pa=" ++ "costacoffee@upi" ++ "&pn=" ++ quote "Costa Coffee" ++
            "&am=" ++ formatAmount2f 150 ++ "&cu=INR" :=
  ⟨by decide, upi_link_amount_two_decimals "costacoffee@upi" "Costa Coffee" 150 _
    (by decide)⟩

theorem leadsWith_append_amp (pat xs ys : List Char) (h : '&' ∉ pat) :
    leadsWith pat (xs ++ '&' :: ys) = leadsWith pat xs := by
  induction pat generalizing xs with
  | nil => rfl
  | cons p ps ih =>
    have hp : p ≠ '&' := fun e => h (by simp [e])
    have hps : '&' ∉ ps := fun e => h (List.mem_cons_of_mem _ e)
    cases xs with
    | nil => simp [leadsWith, hp]
    | cons x xs2 =>
      simp only [List.cons_append, leadsWith, List.append_eq]
      rw [ih xs2 hps]

theorem leadsWith_cons_amp (pat : List Char) (h : '&' ∉ pat) (x : Char)
    (xs ys : List Char) :
    leadsWith pat (x :: (xs ++ '&' :: ys)) = leadsWith pat (x :: xs) := by
  have key := leadsWith_append_amp pat (x :: xs) ys h
  simpa using key

/-- Counting occurrences distributes over an ampersand separator when the
pattern contains no ampersand. -/
theorem countOcc_append_amp (pat : List Char) (hne : pat ≠ []) (h : '&' ∉ pat)
    (xs ys : List Char) :
    countOcc pat (xs ++ '&' :: ys) = countOcc pat xs + countOcc pat ys := by
  induction xs with
  | nil =>
    obtain ⟨p, ps, rfl⟩ : ∃ p ps, pat = p :: ps := by
      cases pat with
      | nil => exact absurd rfl hne
      | cons p ps => exact ⟨p, ps, rfl⟩
    have hp : p ≠ '&' := fun e => h (by simp [e])
    simp [countOcc, leadsWith, hp]
  | cons x xs ih =>
    simp only [List.cons_append, countOcc, List.append_eq]
    simp only [leadsWith_cons_amp pat h, ih]
    omega

theorem leadsWith_mem (pat l : List Char) (hl : leadsWith pat l = true) :
    ∀ x ∈ pat, x ∈ l := by
  induction pat generalizing l with
  | nil => intro x hx; simp at hx
  | cons p ps ih =>
    intro x hx
    cases l with
    | nil => simp [leadsWith] at hl
    | cons c cs =>
      simp only [leadsWith, Bool.and_eq_true, decide_eq_true_eq] at hl
      rcases List.mem_cons.mp hx with rfl | hx
      · simp [hl.1]
      · exact List.mem_cons_of_mem _ (ih cs hl.2 x hx)

/-- A pattern holding a character absent from a list never occurs in it. -/
theorem countOcc_eq_zero (pat : List Char) (a : Char) (ha : a ∈ pat) :
    ∀ l : List Char, a ∉ l → countOcc pat l = 0 := by
  intro l
  induction l with
  | nil => intro _; rfl
  | cons c cs ih =>
    intro hl
    have hcs : a ∉ cs := fun e => hl (List.mem_cons_of_mem _ e)
    have h1 : leadsWith pat (c :: cs) = false := by
      cases hh : leadsWith pat (c :: cs) with
      | false => rfl
      | true => exact absurd (leadsWith_mem pat _ hh a ha) hl
    simp [countOcc, h1, ih hcs]

/-- For a positive amount the rendered amount contains neither the equals
sign nor the ampersand. -/
theorem formatAmount2f_mem (a : ℚ) (ha : 0 < a) (c : Char)
    (hc : c ∈ (formatAmount2f a).data) : c ≠ '=' ∧ c ≠ '&' := by
  have hnum : 0 < a.num := Rat.num_pos.mpr ha
  have hden : (0 : ℤ) < (a.den : ℤ) := by exact_mod_cast a.pos
  have hn : 0 ≤ roundHalfEven (a.num * 100) a.den :=
    roundHalfEven_nonneg _ _ (by positivity) hden
  have hdat : (formatAmount2f a).data =
      natDigits ((roundHalfEven (a.num * 100) a.den).natAbs / 100) ++
        '.' :: [digitChar ((roundHalfEven (a.num * 100) a.den).natAbs / 10 % 10),
          digitChar ((roundHalfEven (a.num * 100) a.den).natAbs % 10)] := by
    have h2 : formatAmount2f a =
        String.mk (natDigits ((roundHalfEven (a.num * 100) a.den).natAbs / 100) ++
          '.' :: [digitChar ((roundHalfEven (a.num * 100) a.den).natAbs / 10 % 10),
            digitChar ((roundHalfEven (a.num * 100) a.den).natAbs % 10)]) := by
      simp only [formatAmount2f]
      rw [if_neg (not_lt.mpr hn)]
      simp
    rw [h2]
  rw [hdat] at hc
  rcases List.mem_append.mp hc with hc | hc
  · obtain ⟨h1, h2⟩ := (natDigits_spec _).2 c hc
    exact digit_ne_special c h1 h2
  · rcases List.mem_cons.mp hc with rfl | hc
    · exact ⟨by decide, by decide⟩
    · rcases List.mem_cons.mp hc with rfl | hc
      · have := digitChar_toNat ((roundHalfEven (a.num * 100) a.den).natAbs / 10 % 10)
          (by omega)
        exact digit_ne_special _ (by omega) (by omega)
      · rcases List.mem_cons.mp hc with rfl | hc
        · have := digitChar_toNat ((roundHalfEven (a.num * 100) a.den).natAbs % 10)
            (by omega)
          exact digit_ne_special _ (by omega) (by omega)
        · simp at hc

/-- C3 amended: for every valid input whose payee id does not itself
contain any of the four keys pa=, pn=, am=, cu= as a segment, the returned
URI contains exactly one occurrence of each key, and they appear in that
left-to-right order. -/
theorem upi_link_fields_unique (upi_id name : String) (a : ℚ)
    (h1 : upi_id ≠ "") (h2 : name ≠ "") (h3 : 0 < a)
    (hk1 : countOcc paKey upi_id.data = 0) (hk2 : countOcc pnKey upi_id.data = 0)
    (hk3 : countOcc amKey upi_id.data = 0) (hk4 : countOcc cuKey upi_id.data = 0) :
    ∃ u, generate_upi_link upi_id name (some a) = some u ∧
      countOcc paKey u.data = 1 ∧ countOcc pnKey u.data = 1 ∧
      countOcc amKey u.data = 1 ∧ countOcc cuKey u.data = 1 ∧
      ∃ s1 s2 s3 s4 s5,
        u.data = s1 ++ paKey ++ s2 ++ pnKey ++ s3 ++ amKey ++ s4 ++ cuKey ++ s5 := by
  have hu := upi_link_payee_id_verbatim upi_id name a h1 h2 h3
  have henc : '=' ∉ (quote name).data := fun hm =>
    (quoteList_no_special name.data '=' hm).2.2.1 rfl
  have hamt : '=' ∉ (formatAmount2f a).data := fun hm =>
    (formatAmount2f_mem a h3 '=' hm).1 rfl
  have czenc : ∀ k : List Char, '=' ∈ k → countOcc k (quote name).data = 0 :=
    fun k hk => countOcc_eq_zero k '=' hk _ henc
  have czamt : ∀ k : List Char, '=' ∈ k → countOcc k (formatAmount2f a).data = 0 :=
    fun k hk => countOcc_eq_zero k '=' hk _ hamt
  have hdata : ("upi://pay?pa=" ++ upi_id ++ "&pn=" ++ quote name ++ "&am=" ++
      formatAmount2f a ++ "&cu=INR" : String).data =
      (['u','p','i',':','/','/','p','a','y','?','p','a','='] ++ upi_id.data) ++ '&' ::
        ((['p','n','='] ++ (quote name).data) ++ '&' ::
          ((['a','m','='] ++ (formatAmount2f a).data) ++ '&' ::
            ['c','u','=','I','N','R'])) := by
    simp [String.data_append, List.append_assoc]
  refine ⟨_, hu, ?_, ?_, ?_, ?_, ?_⟩
  · rw [hdata, countOcc_append_amp paKey (by decide) (by decide),
      countOcc_append_amp paKey (by decide) (by decide),
      countOcc_append_amp paKey (by decide) (by decide)]
    simp [countOcc, leadsWith, hk1, czenc paKey (by decide),
      czamt paKey (by decide)]
  · rw [hdata, countOcc_append_amp pnKey (by decide) (by decide),
      countOcc_append_amp pnKey (by decide) (by decide),
      countOcc_append_amp pnKey (by decide) (by decide)]
    simp [countOcc, leadsWith, hk2, czenc pnKey (by decide),
      czamt pnKey (by decide)]
  · rw [hdata, countOcc_append_amp amKey (by decide) (by decide),
      countOcc_append_amp amKey (by decide) (by decide),
      countOcc_append_amp amKey (by decide) (by decide)]
    simp [countOcc, leadsWith, hk3, czenc amKey (by decide),
      czamt amKey (by decide)]
  · rw [hdata, countOcc_append_amp cuKey (by decide) (by decide),
      countOcc_append_amp cuKey (by decide) (by decide),
      countOcc_append_amp cuKey (by decide) (by decide)]
    simp [countOcc, leadsWith, hk4, czenc cuKey (by decide),
      czamt cuKey (by decide)]
  · refine ⟨['u','p','i',':','/','/','p','a','y','?'], upi_id.data ++ ['&'],
      (quote name).data ++ ['&'], (formatAmount2f a).data ++ ['&'],
      ['I','N','R'], ?_⟩
    rw [hdata]
    simp [paKey, pnKey, amKey, cuKey, List.append_assoc]

/-- Witness for the amended C3 at the documented example input. -/
theorem upi_link_fields_unique_witness :
    ("costacoffee@upi" : String) ≠ "" ∧ ("Costa Coffee" : String) ≠ "" ∧
      (0 : ℚ) < 150 ∧
      countOcc paKey ("costacoffee@upi" : String).data = 0 ∧
      countOcc pnKey ("costacoffee@upi" : String).data = 0 ∧
      countOcc amKey ("costacoffee@upi" : String).data = 0 ∧
      countOcc cuKey ("costacoffee@upi" : String).data = 0 ∧
      ∃ u, generate_upi_link "costacoffee@upi" "Costa Coffee" (some 150) = some u ∧
        countOcc paKey u.data = 1 ∧ countOcc pnKey u.data = 1 ∧
        countOcc amKey u.data = 1 ∧ countOcc cuKey u.data = 1 ∧
        ∃ s1 s2 s3 s4 s5,
          u.data = s1 ++ paKey ++ s2 ++ pnKey ++ s3 ++ amKey ++ s4 ++ cuKey ++ s5 :=
  ⟨by decide, by decide, by decide, by decide, by decide, by decide, by decide,
    upi_link_fields_unique "costacoffee@upi" "Costa Coffee" 150 (by decide)
      (by decide) (by decide) (by decide) (by decide) (by decide) (by decide)⟩

/-- Counterexample to C3 as stated: the valid input with payee id pa= and
name x yields a URI in which pa= occurs twice, not exactly once. -/
theorem upi_link_fields_unique_cex :
    ("pa=" : String) ≠ "" ∧ ("x" : String) ≠ "" ∧ (0 : ℚ) < 1 ∧
      generate_upi_link "pa=" "x" (some 1) =
        some "upi://pay?pa=pa=&pn=x&am=1.00&cu=INR" ∧
      countOcc paKey ("upi://pay?pa=pa=&pn=x&am=1.00&cu=INR" : String).data = 2 := by
  refine ⟨by decide, by decide, by decide, by decide, by decide⟩

end UpiApp
